import Mathlib

/-!
# Shallow embedding of `upload_to_server.py`

The program is a single-endpoint FastAPI upload server.  Its core logic
(`upload_files`, lines 119-144 of `upload_to_server.py`) is, per file part:

1. `safe_filename = Path(file.filename).name` — keep only the final path
   component (POSIX `pathlib` semantics);
2. `file_path = os.path.join(UPLOAD_DIR, safe_filename)`;
3. a `while os.path.exists(file_path)` loop that rewrites the candidate as
   `f"{original_name}_{counter}{extension}"` with `counter = 1, 2, ...`,
   where `original_name = Path(safe_filename).stem` and
   `extension = Path(safe_filename).suffix`;
4. `open(file_path, "wb")` + `shutil.copyfileobj` — write the payload bytes;
5. append the resolved name to `saved_files`; finally return
   `{"filenames": saved_files}`.

The filesystem is modelled as the association list of (relative name, bytes)
entries living in the storage directory `UPLOAD_DIR` (the directory is flat:
the handler only ever joins a slash-free name onto `UPLOAD_DIR`).  Paths that
exist regardless of the stored files — the directory itself (reached by
joining the empty name, since `os.path.join("uploads", "") == "uploads/"`),
its parent `".."` and itself `"."` — are built into the existence check.
Python's while loop is embedded with an explicit fuel parameter; theorems
below prove the fuel used by the handler is always sufficient, so the
embedding computes exactly what the unbounded loop computes.
-/

namespace UploadServer

/-- Byte content of an uploaded payload (an opaque byte sequence). -/
abbrev Bytes := List Nat

/-- The storage directory: the association list of files it contains,
as (relative filename, byte content) pairs.  Models the contents of
`UPLOAD_DIR` ("uploads"). -/
structure FS where
  files : List (String × Bytes)
deriving DecidableEq, Repr

/-- Names of the files currently present in the storage directory. -/
def FS.names (fs : FS) : List String := fs.files.map Prod.fst

/-- `os.path.exists(os.path.join(UPLOAD_DIR, s))` for a slash-free relative
name `s`.  The directory itself (`s = ""`, since joining the empty string
yields `"uploads/"` and the directory is created at startup), the current
directory entry `"."` and the parent `".."` always exist; otherwise the path
exists iff a stored file has that name. -/
def pathExists (fs : FS) (s : String) : Bool :=
  s == "" || s == "." || s == ".." || fs.names.contains s

/-- Split a list of characters on a separator character, keeping empty
segments (the behaviour of splitting a POSIX path on `'/'`). -/
def splitOnChar (sep : Char) : List Char → List (List Char)
  | [] => [[]]
  | a :: as =>
    match splitOnChar sep as with
    | [] => [[]]
    | h :: t => if a = sep then [] :: h :: t else (a :: h) :: t

/-- `pathlib.PurePosixPath(s).name`: the final path component.  `pathlib`
parses a path into components by splitting on `'/'` and dropping empty
components and `"."`; `name` is the last component, or `""` when there is
none (also when the only component is the root). -/
def pathlibName (s : String) : String :=
  ⟨(((splitOnChar '/' s.data).filter (fun c => c != [] && c != ['.'])).getLast?).getD []⟩

/-- Index of the last occurrence of `c` in the list, if any
(Python `str.rfind`, restricted to found/not-found). -/
def rfindIdx (c : Char) : List Char → Option Nat
  | [] => none
  | a :: as =>
    match rfindIdx c as with
    | some i => some (i + 1)
    | none => if a = c then some 0 else none

/-- `(Path(name).stem, Path(name).suffix)` for a slash-free `name`:
with `i = name.rfind('.')`, if `0 < i < len(name) - 1` then the suffix is
`name[i:]` and the stem `name[:i]`; otherwise the suffix is empty and the
stem is the whole name. -/
def splitExt (name : String) : String × String :=
  match rfindIdx '.' name.data with
  | none => (name, "")
  | some i =>
    if 0 < i ∧ i < name.data.length - 1 then (⟨name.data.take i⟩, ⟨name.data.drop i⟩)
    else (name, "")

/-- The digit character for `d < 10` (Python decimal formatting). -/
def decDigit (d : Nat) : Char := Char.ofNat (48 + d)

/-- Accumulator loop producing the decimal digits of `n` (most significant
first) in front of `acc`; `fuel ≥ n` suffices (proved below). -/
def natDecAux : Nat → Nat → List Char → List Char
  | 0, _, acc => acc
  | fuel + 1, n, acc =>
    if n = 0 then acc else natDecAux fuel (n / 10) (decDigit (n % 10) :: acc)

/-- Python's decimal rendering of a non-negative integer, `f"{n}"`. -/
def natDecimal (n : Nat) : String :=
  if n = 0 then "0" else ⟨natDecAux n n []⟩

/-- The candidate name `f"{original_name}_{counter}{extension}"` built in the
collision loop. -/
def mkCandidate (stem ext : String) (n : Nat) : String :=
  stem ++ "_" ++ natDecimal n ++ ext

/-- The `while os.path.exists(file_path)` loop of `upload_files`, with an
explicit fuel bound: while the candidate exists, replace it by
`mkCandidate stem ext counter` and increment `counter`.  `resolveName`
below supplies fuel proved sufficient, making the embedding agree with the
unbounded Python loop. -/
def resolveLoop (fs : FS) (stem ext : String) : String → Nat → Nat → String
  | cand, _, 0 => cand
  | cand, counter, fuel + 1 =>
    if pathExists fs cand then
      resolveLoop fs stem ext (mkCandidate stem ext counter) (counter + 1) fuel
    else cand

/-- Number of iterations the collision loop performs before exiting
(with the same fuel convention as `resolveLoop`). -/
def resolveSteps (fs : FS) (stem ext : String) : String → Nat → Nat → Nat
  | _, _, 0 => 0
  | cand, counter, fuel + 1 =>
    if pathExists fs cand then
      resolveSteps fs stem ext (mkCandidate stem ext counter) (counter + 1) fuel + 1
    else 0

/-- Fuel that always suffices for the collision loop (proved below): one more
than the number of paths that can test as existing. -/
def fuelFor (fs : FS) : Nat := fs.names.length + 5

/-- Lines 131-138 of `upload_files`: starting from the sanitized filename,
resolve collisions by suffixing `_1`, `_2`, ... before the extension. -/
def resolveName (fs : FS) (safe : String) : String :=
  let stem := (splitExt safe).1
  let ext := (splitExt safe).2
  resolveLoop fs stem ext safe 1 (fuelFor fs)

/-- `open(file_path, "wb")` + `shutil.copyfileobj`: create the file with the
given bytes, truncating (replacing the content) if the path already names a
stored file. -/
def writeFile (fs : FS) (name : String) (content : Bytes) : FS :=
  if fs.names.contains name then
    ⟨fs.files.map (fun p => if p.1 = name then (name, content) else p)⟩
  else
    ⟨fs.files ++ [(name, content)]⟩

/-- Lines 127-142 of `upload_files`, for a single part: sanitize the
client-supplied filename, resolve collisions, write the bytes, and return
the new directory state together with the resolved (recorded) name. -/
def processFile (fs : FS) (part : String × Bytes) : FS × String :=
  let safe := pathlibName part.1
  let resolved := resolveName fs safe
  (writeFile fs resolved part.2, resolved)

/-- The `upload_files` handler body (lines 119-144): process each part named
`files` in order, returning the final directory state and the `filenames`
list of the JSON response, in submission order. -/
def upload_files (fs : FS) : List (String × Bytes) → FS × List String
  | [] => (fs, [])
  | part :: rest =>
    let r := processFile fs part
    let rec' := upload_files r.1 rest
    (rec'.1, r.2 :: rec'.2)

/-- `GET /uploads/<name>`: the static-file mount (line 37) serves the bytes
of the stored file of that name, or nothing when absent. -/
def readFile (fs : FS) (name : String) : Option Bytes :=
  (fs.files.find? (fun p => p.1 == name)).map Prod.snd

/-- Variant of the handler in which each part carries a write-outcome flag:
`false` means the `open`/`copyfileobj` step raises (disk full, permissions).
An exception aborts the remaining parts and surfaces as a request-level
error carrying no per-file report; the `Except.error` value records the
directory state left behind. -/
def upload_filesE (fs : FS) :
    List (String × Bytes × Bool) → Except FS (FS × List String)
  | [] => .ok (fs, [])
  | (name, content, ok) :: rest =>
    let safe := pathlibName name
    let resolved := resolveName fs safe
    if ok then
      match upload_filesE (writeFile fs resolved content) rest with
      | .ok (fs2, ns) => .ok (fs2, resolved :: ns)
      | .error e => .error e
    else .error fs

/-- The list of relative names that currently test as existing. -/
def allNames (fs : FS) : List String := "" :: "." :: ".." :: fs.names

/-! ## Decimal rendering lemmas -/

theorem natDecAux_zero (f : Nat) (acc : List Char) : natDecAux f 0 acc = acc := by
  cases f <;> simp [natDecAux]

theorem natDecAux_fuel : ∀ f₁ f₂ n acc, n ≤ f₁ → n ≤ f₂ →
    natDecAux f₁ n acc = natDecAux f₂ n acc := by
  intro f₁
  induction f₁ with
  | zero =>
    intro f₂ n acc h1 _
    interval_cases n
    simp [natDecAux_zero]
  | succ f ih =>
    intro f₂ n acc h1 h2
    rcases Nat.eq_zero_or_pos n with hn | hn
    · subst hn; simp [natDecAux_zero]
    · obtain ⟨f₂', rfl⟩ : ∃ k, f₂ = k + 1 := ⟨f₂ - 1, by omega⟩
      have hd : n / 10 < n := Nat.div_lt_self hn (by norm_num)
      simp only [natDecAux, if_neg (Nat.pos_iff_ne_zero.mp hn)]
      exact ih f₂' (n / 10) _ (by omega) (by omega)

theorem natDecAux_append : ∀ f n acc, natDecAux f n acc = natDecAux f n [] ++ acc := by
  intro f
  induction f with
  | zero => intro n acc; simp [natDecAux]
  | succ f ih =>
    intro n acc
    by_cases hn : n = 0
    · subst hn; simp [natDecAux]
    · simp only [natDecAux, if_neg hn]
      rw [ih (n / 10) (decDigit (n % 10) :: acc), ih (n / 10) [decDigit (n % 10)]]
      simp

/-- canonical unfolding for nonzero n -/
theorem natDecAux_eq (n : Nat) (hn : n ≠ 0) :
    natDecAux n n [] = natDecAux (n / 10) (n / 10) [] ++ [decDigit (n % 10)] := by
  obtain ⟨k, rfl⟩ : ∃ k, n = k + 1 := ⟨n - 1, by omega⟩
  simp only [natDecAux, if_neg hn]
  rw [natDecAux_fuel k ((k+1)/10) ((k+1)/10) _ (by have := Nat.div_lt_self (Nat.succ_pos k) (show 1 < 10 by norm_num); omega) le_rfl]
  exact natDecAux_append _ _ _

theorem natDecAux_ne_nil (n : Nat) (hn : n ≠ 0) : natDecAux n n [] ≠ [] := by
  rw [natDecAux_eq n hn]; simp

theorem decDigit_inj : ∀ d < 10, ∀ e < 10, decDigit d = decDigit e → d = e := by decide

theorem natDecAux_inj : ∀ n, ∀ m, n ≠ 0 → m ≠ 0 →
    natDecAux n n [] = natDecAux m m [] → n = m := by
  intro n
  induction n using Nat.strong_induction_on with
  | _ n ih =>
    intro m hn hm h
    rw [natDecAux_eq n hn, natDecAux_eq m hm] at h
    obtain ⟨h1, h2⟩ := List.append_inj' h (by simp)
    have hmod : n % 10 = m % 10 := by
      have := List.cons.injEq (decDigit (n % 10)) [] (decDigit (m % 10)) [] ▸ h2
      simp at h2
      exact decDigit_inj _ (Nat.mod_lt _ (by norm_num)) _ (Nat.mod_lt _ (by norm_num)) h2
    have hdiv : n / 10 = m / 10 := by
      by_cases hn' : n / 10 = 0
      · by_cases hm' : m / 10 = 0
        · omega
        · rw [hn', natDecAux_zero] at h1
          exact absurd h1.symm (natDecAux_ne_nil _ hm')
      · by_cases hm' : m / 10 = 0
        · rw [hm', natDecAux_zero] at h1
          exact absurd h1 (natDecAux_ne_nil _ hn')
        · exact ih (n / 10) (Nat.div_lt_self (Nat.pos_of_ne_zero hn) (by norm_num)) (m / 10) hn' hm' h1
    omega

theorem natDecimal_inj : Function.Injective natDecimal := by
  intro n m h
  unfold natDecimal at h
  by_cases hn : n = 0 <;> by_cases hm : m = 0
  · omega
  · rw [if_pos hn, if_neg hm] at h
    have : natDecAux m m [] = ['0'] := by
      have := congrArg String.data h
      simpa using this.symm
    have h2 : natDecAux (m / 10) (m / 10) [] ++ [decDigit (m % 10)] = [] ++ ['0'] := by
      rw [← natDecAux_eq m hm, this]
      rfl
    obtain ⟨h3, h4⟩ := List.append_inj' h2 (by simp)
    have hm10 : m / 10 = 0 := by
      by_contra hc
      exact natDecAux_ne_nil _ hc h3
    have h4' : decDigit (m % 10) = '0' := by simpa using h4
    have : m % 10 = 0 := by
      have h0 : decDigit 0 = '0' := by decide
      exact decDigit_inj _ (Nat.mod_lt _ (by norm_num)) 0 (by norm_num) (h4'.trans h0.symm)
    omega
  · rw [if_neg hn, if_pos hm] at h
    have : natDecAux n n [] = ['0'] := by
      have := congrArg String.data h
      simpa using this
    have h2 : natDecAux (n / 10) (n / 10) [] ++ [decDigit (n % 10)] = [] ++ ['0'] := by
      rw [← natDecAux_eq n hn, this]
      rfl
    obtain ⟨h3, h4⟩ := List.append_inj' h2 (by simp)
    have hn10 : n / 10 = 0 := by
      by_contra hc
      exact natDecAux_ne_nil _ hc h3
    have h4' : decDigit (n % 10) = '0' := by simpa using h4
    have : n % 10 = 0 := by
      have h0 : decDigit 0 = '0' := by decide
      exact decDigit_inj _ (Nat.mod_lt _ (by norm_num)) 0 (by norm_num) (h4'.trans h0.symm)
    omega
  · rw [if_neg hn, if_neg hm] at h
    have := congrArg String.data h
    simp at this
    exact natDecAux_inj n m hn hm this

theorem natDecAux_mem : ∀ f n acc c, c ∈ natDecAux f n acc →
    c ∈ acc ∨ ∃ d, d < 10 ∧ c = decDigit d := by
  intro f
  induction f with
  | zero => intro n acc c h; simp [natDecAux] at h; exact Or.inl h
  | succ f ih =>
    intro n acc c h
    by_cases hn : n = 0
    · subst hn; simp [natDecAux] at h; exact Or.inl h
    · simp only [natDecAux, if_neg hn] at h
      rcases ih _ _ _ h with hmem | hdig
      · rcases List.mem_cons.mp hmem with hc | hc
        · exact Or.inr ⟨n % 10, Nat.mod_lt _ (by norm_num), hc⟩
        · exact Or.inl hc
      · exact Or.inr hdig

theorem natDecimal_mem (n : Nat) (c : Char) (h : c ∈ (natDecimal n).data) :
    ∃ d, d < 10 ∧ c = decDigit d := by
  unfold natDecimal at h
  by_cases hn : n = 0
  · rw [if_pos hn] at h
    simp [String.data] at h
    exact ⟨0, by norm_num, by rw [h]; decide⟩
  · rw [if_neg hn] at h
    rcases natDecAux_mem n n [] c h with h' | h'
    · simp at h'
    · exact h'

theorem natDecimal_no_slash (n : Nat) : '/' ∉ (natDecimal n).data := by
  intro h
  obtain ⟨d, hd, hc⟩ := natDecimal_mem n '/' h
  revert hc
  revert hd
  revert d
  decide


/-! ## Existence check and candidate names -/

theorem pathExists_iff (fs : FS) (s : String) :
    pathExists fs s = true ↔ s ∈ allNames fs := by
  simp [pathExists, allNames, List.contains, List.elem_iff, or_assoc]

theorem mkCandidate_data (stem ext : String) (n : Nat) :
    (mkCandidate stem ext n).data
      = stem.data ++ '_' :: ((natDecimal n).data ++ ext.data) := by
  simp [mkCandidate, String.data_append]

theorem mkCandidate_inj (stem ext : String) : ∀ {n m : Nat},
    mkCandidate stem ext n = mkCandidate stem ext m → n = m := by
  intro n m h
  have hd := congrArg String.data h
  rw [mkCandidate_data, mkCandidate_data] at hd
  have h1 := List.append_cancel_left hd
  have h2 : (natDecimal n).data ++ ext.data = (natDecimal m).data ++ ext.data :=
    List.cons.inj h1 |>.2
  have h3 := List.append_cancel_right h2
  exact natDecimal_inj (String.ext h3)

/-- Pigeonhole: some candidate with index in `[1, |allNames fs| + 1]` is free. -/
theorem exists_free_candidate (fs : FS) (stem ext : String) :
    ∃ n, 1 ≤ n ∧ n ≤ (allNames fs).length + 1 ∧
      pathExists fs (mkCandidate stem ext n) = false := by
  by_contra hcon
  push_neg at hcon
  have hall : ∀ n, 1 ≤ n → n ≤ (allNames fs).length + 1 →
      mkCandidate stem ext n ∈ allNames fs := by
    intro n h1 h2
    have := hcon n h1 h2
    rw [← pathExists_iff]
    cases hpe : pathExists fs (mkCandidate stem ext n)
    · exact absurd hpe this
    · rfl
  have hsub : (Finset.Icc 1 ((allNames fs).length + 1)).image (mkCandidate stem ext)
      ⊆ (allNames fs).toFinset := by
    intro x hx
    rw [Finset.mem_image] at hx
    obtain ⟨n, hn, rfl⟩ := hx
    rw [Finset.mem_Icc] at hn
    rw [List.mem_toFinset]
    exact hall n hn.1 hn.2
  have hcard := Finset.card_le_card hsub
  rw [Finset.card_image_of_injective _ (fun a b => mkCandidate_inj stem ext)] at hcard
  rw [Nat.card_Icc] at hcard
  have := List.toFinset_card_le (allNames fs)
  omega

/-! ## Collision-loop characterization -/

theorem resolveLoop_of_free (fs : FS) (stem ext cand : String) (counter fuel : Nat)
    (hfree : pathExists fs cand = false) (hfuel : 1 ≤ fuel) :
    resolveLoop fs stem ext cand counter fuel = cand := by
  obtain ⟨f, rfl⟩ : ∃ k, fuel = k + 1 := ⟨fuel - 1, by omega⟩
  simp [resolveLoop, hfree]

theorem resolveSteps_of_free (fs : FS) (stem ext cand : String) (counter fuel : Nat)
    (hfree : pathExists fs cand = false) :
    resolveSteps fs stem ext cand counter fuel = 0 := by
  cases fuel with
  | zero => rfl
  | succ f => simp [resolveSteps, hfree]

theorem resolveLoop_eq_mk (fs : FS) (stem ext : String) :
    ∀ fuel cand counter n, pathExists fs cand = true → counter ≤ n →
    (∀ m, counter ≤ m → m < n → pathExists fs (mkCandidate stem ext m) = true) →
    pathExists fs (mkCandidate stem ext n) = false →
    n - counter + 2 ≤ fuel →
    resolveLoop fs stem ext cand counter fuel = mkCandidate stem ext n := by
  intro fuel
  induction fuel with
  | zero => intro cand counter n _ _ _ _ hf; omega
  | succ f ih =>
    intro cand counter n hex hle hmid hfree hf
    simp only [resolveLoop, hex, if_true]
    rcases Nat.eq_or_lt_of_le hle with rfl | hlt
    · exact resolveLoop_of_free fs stem ext _ _ f hfree (by omega)
    · exact ih (mkCandidate stem ext counter) (counter + 1) n
        (hmid counter le_rfl hlt) hlt
        (fun m h1 h2 => hmid m (by omega) h2) hfree (by omega)

theorem resolveSteps_eq (fs : FS) (stem ext : String) :
    ∀ fuel cand counter n, pathExists fs cand = true → counter ≤ n →
    (∀ m, counter ≤ m → m < n → pathExists fs (mkCandidate stem ext m) = true) →
    pathExists fs (mkCandidate stem ext n) = false →
    n - counter + 2 ≤ fuel →
    resolveSteps fs stem ext cand counter fuel = n - counter + 1 := by
  intro fuel
  induction fuel with
  | zero => intro cand counter n _ _ _ _ hf; omega
  | succ f ih =>
    intro cand counter n hex hle hmid hfree hf
    simp only [resolveSteps, hex, if_true]
    rcases Nat.eq_or_lt_of_le hle with rfl | hlt
    · rw [resolveSteps_of_free fs stem ext _ _ f hfree]
      omega
    · rw [ih (mkCandidate stem ext counter) (counter + 1) n
        (hmid counter le_rfl hlt) hlt
        (fun m h1 h2 => hmid m (by omega) h2) hfree (by omega)]
      omega

/-- Main characterization of line 131-138: either the sanitized name is free
and is returned unchanged, or the result is `stem_n+ext` for the least free
`n ≥ 1`. -/
theorem resolveName_spec (fs : FS) (safe : String) :
    (pathExists fs safe = false → resolveName fs safe = safe) ∧
    (pathExists fs safe = true →
      ∃ n, 1 ≤ n ∧
        pathExists fs (mkCandidate (splitExt safe).1 (splitExt safe).2 n) = false ∧
        (∀ m, 1 ≤ m → m < n →
          pathExists fs (mkCandidate (splitExt safe).1 (splitExt safe).2 m) = true) ∧
        resolveName fs safe = mkCandidate (splitExt safe).1 (splitExt safe).2 n ∧
        n ≤ fs.names.length + 4) := by
  constructor
  · intro hfree
    unfold resolveName
    exact resolveLoop_of_free fs _ _ safe 1 (fuelFor fs) hfree (by simp [fuelFor])
  · intro hex
    set stem := (splitExt safe).1
    set ext := (splitExt safe).2
    obtain ⟨n₀, hn₀1, hn₀2, hn₀3⟩ := exists_free_candidate fs stem ext
    have hP : ∃ k, pathExists fs (mkCandidate stem ext (k + 1)) = false :=
      ⟨n₀ - 1, by have : n₀ - 1 + 1 = n₀ := by omega
                  rw [this]; exact hn₀3⟩
    set k₀ := Nat.find hP with hk₀
    refine ⟨k₀ + 1, by omega, Nat.find_spec hP, ?_, ?_, ?_⟩
    · intro m h1 h2
      have := Nat.find_min hP (m := m - 1) (by omega)
      have hm : m - 1 + 1 = m := by omega
      rw [hm] at this
      cases hpe : pathExists fs (mkCandidate stem ext m)
      · exact absurd hpe this
      · rfl
    · unfold resolveName
      apply resolveLoop_eq_mk fs stem ext (fuelFor fs) safe 1 (k₀ + 1) hex (by omega)
      · intro m h1 h2
        have := Nat.find_min hP (m := m - 1) (by omega)
        have hm : m - 1 + 1 = m := by omega
        rw [hm] at this
        cases hpe : pathExists fs (mkCandidate stem ext m)
        · exact absurd hpe this
        · rfl
      · exact Nat.find_spec hP
      · have hle : k₀ ≤ n₀ - 1 := Nat.find_le (by
          have : n₀ - 1 + 1 = n₀ := by omega
          rw [this]; exact hn₀3)
        simp only [fuelFor]
        have : (allNames fs).length = fs.names.length + 3 := by simp [allNames]
        omega
    · have hle : k₀ ≤ n₀ - 1 := Nat.find_le (by
        have : n₀ - 1 + 1 = n₀ := by omega
        rw [this]; exact hn₀3)
      have : (allNames fs).length = fs.names.length + 3 := by simp [allNames]
      omega

/-- The resolved name is always free: the write targets a fresh path. -/
theorem resolveName_free (fs : FS) (safe : String) :
    pathExists fs (resolveName fs safe) = false := by
  obtain ⟨h1, h2⟩ := resolveName_spec fs safe
  cases hpe : pathExists fs safe
  · rw [h1 hpe]; exact hpe
  · obtain ⟨n, _, hfree, _, heq, _⟩ := h2 hpe
    rw [heq]; exact hfree


/-! ## Sanitization keeps names inside the storage directory -/

theorem splitOnChar_cons (sep a : Char) (as : List Char) :
    splitOnChar sep (a :: as) =
      match splitOnChar sep as with
      | [] => [[]]
      | h :: t => if a = sep then [] :: h :: t else (a :: h) :: t := rfl

theorem splitOnChar_not_mem (sep : Char) :
    ∀ l : List Char, ∀ cs ∈ splitOnChar sep l, sep ∉ cs := by
  intro l
  induction l with
  | nil =>
    intro cs hcs
    simp [splitOnChar] at hcs
    simp [hcs]
  | cons a as ih =>
    intro cs hcs
    rw [splitOnChar_cons] at hcs
    cases hsp : splitOnChar sep as with
    | nil =>
      rw [hsp] at hcs
      have hcs' : cs ∈ [([] : List Char)] := hcs
      simp at hcs'
      simp [hcs']
    | cons h t =>
      rw [hsp] at hcs
      have hcs' : cs ∈ (if a = sep then [] :: h :: t else (a :: h) :: t) := hcs
      by_cases ha : a = sep
      · rw [if_pos ha] at hcs'
        rcases List.mem_cons.mp hcs' with rfl | hmem
        · simp
        · exact ih cs (hsp ▸ hmem)
      · rw [if_neg ha] at hcs'
        rcases List.mem_cons.mp hcs' with rfl | hmem
        · intro hin
          rcases List.mem_cons.mp hin with rfl | hin'
          · exact ha rfl
          · exact ih h (hsp ▸ List.mem_cons_self h t) hin'
        · exact ih cs (hsp ▸ List.mem_cons_of_mem h hmem)

theorem pathlibName_no_slash (s : String) : '/' ∉ (pathlibName s).data := by
  unfold pathlibName
  cases hl : (((splitOnChar '/' s.data).filter
      (fun c => c != [] && c != ['.'])).getLast?) with
  | none => simp
  | some a =>
    simp only [Option.getD_some]
    obtain ⟨ys, hys⟩ := List.getLast?_eq_some_iff.mp hl
    have ha : a ∈ (splitOnChar '/' s.data).filter (fun c => c != [] && c != ['.']) := by
      rw [hys]; simp
    exact splitOnChar_not_mem '/' s.data a (List.mem_filter.mp ha).1

theorem splitExt_of_none {name : String} (h : rfindIdx '.' name.data = none) :
    splitExt name = (name, "") := by
  simp only [splitExt]
  rw [h]

theorem splitExt_of_found {name : String} {i : Nat} (h : rfindIdx '.' name.data = some i)
    (hc : 0 < i ∧ i < name.data.length - 1) :
    splitExt name = (⟨name.data.take i⟩, ⟨name.data.drop i⟩) := by
  simp only [splitExt]
  rw [h]
  simp only [if_pos hc]

theorem splitExt_of_edge {name : String} {i : Nat} (h : rfindIdx '.' name.data = some i)
    (hc : ¬ (0 < i ∧ i < name.data.length - 1)) :
    splitExt name = (name, "") := by
  simp only [splitExt]
  rw [h]
  simp only [if_neg hc]

theorem splitExt_comp (name : String) :
    (splitExt name).1 ++ (splitExt name).2 = name := by
  cases hr : rfindIdx '.' name.data with
  | none =>
    rw [splitExt_of_none hr]
    apply String.ext
    simp [String.data_append]
  | some i =>
    by_cases hc : 0 < i ∧ i < name.data.length - 1
    · rw [splitExt_of_found hr hc]
      apply String.ext
      simp [String.data_append]
    · rw [splitExt_of_edge hr hc]
      apply String.ext
      simp [String.data_append]

theorem splitExt_data (name : String) :
    name.data = (splitExt name).1.data ++ (splitExt name).2.data := by
  rw [← String.data_append, splitExt_comp]

theorem resolveName_no_slash (fs : FS) (safe : String) (h : '/' ∉ safe.data) :
    '/' ∉ (resolveName fs safe).data := by
  obtain ⟨h1, h2⟩ := resolveName_spec fs safe
  cases hpe : pathExists fs safe
  · rw [h1 hpe]; exact h
  · obtain ⟨n, _, _, _, heq, _⟩ := h2 hpe
    rw [heq, mkCandidate_data]
    intro hmem
    rcases List.mem_append.mp hmem with hs | hs
    · exact h (splitExt_data safe ▸ List.mem_append_left _ hs)
    · rcases List.mem_cons.mp hs with hu | hs'
      · exact absurd hu (by decide)
      · rcases List.mem_append.mp hs' with hd | he
        · exact natDecimal_no_slash n hd
        · exact h (splitExt_data safe ▸ List.mem_append_right _ he)

theorem free_props {fs : FS} {s : String} (h : pathExists fs s = false) :
    s ≠ "" ∧ s ≠ "." ∧ s ≠ ".." ∧ s ∉ fs.names := by
  have : ¬ (s ∈ allNames fs) := by
    rw [← pathExists_iff, h]
    simp
  simp [allNames] at this
  tauto

theorem pathExists_of_mem {fs : FS} {s : String} (h : s ∈ fs.names) :
    pathExists fs s = true := by
  rw [pathExists_iff]
  simp [allNames]
  tauto

/-! ## Writing and the handler -/

theorem writeFile_of_free {fs : FS} {name : String} (c : Bytes)
    (h : pathExists fs name = false) :
    writeFile fs name c = ⟨fs.files ++ [(name, c)]⟩ := by
  have hnm := (free_props h).2.2.2
  unfold writeFile
  rw [if_neg]
  intro hc
  exact hnm (List.elem_iff.mp hc)

theorem processFile_eq (fs : FS) (part : String × Bytes) :
    processFile fs part =
      (⟨fs.files ++ [(resolveName fs (pathlibName part.1), part.2)]⟩,
        resolveName fs (pathlibName part.1)) := by
  simp only [processFile]
  rw [writeFile_of_free part.2 (resolveName_free fs (pathlibName part.1))]

theorem upload_files_append (fs : FS) (parts : List (String × Bytes)) :
    ∃ new, (upload_files fs parts).1.files = fs.files ++ new := by
  induction parts generalizing fs with
  | nil => exact ⟨[], by simp [upload_files]⟩
  | cons part rest ih =>
    obtain ⟨new, hnew⟩ := ih (processFile fs part).1
    refine ⟨[(resolveName fs (pathlibName part.1), part.2)] ++ new, ?_⟩
    simp only [upload_files]
    rw [hnew, processFile_eq]
    simp

theorem upload_files_length (fs : FS) (parts : List (String × Bytes)) :
    (upload_files fs parts).2.length = parts.length := by
  induction parts generalizing fs with
  | nil => simp [upload_files]
  | cons part rest ih => simp [upload_files, ih]

theorem readFile_mem_names {fs : FS} {r : String} {c : Bytes}
    (h : readFile fs r = some c) : r ∈ fs.names := by
  unfold readFile at h
  cases hf : fs.files.find? (fun p => p.1 == r) with
  | none => rw [hf] at h; simp at h
  | some e =>
    have hmem := List.mem_of_find?_eq_some hf
    have hpe := List.find?_some hf
    have he : e.1 = r := by simpa using hpe
    exact he ▸ List.mem_map_of_mem Prod.fst hmem

theorem readFile_append_left {l₁ l₂ : List (String × Bytes)} {r : String} {c : Bytes}
    (h : readFile ⟨l₁⟩ r = some c) : readFile ⟨l₁ ++ l₂⟩ r = some c := by
  unfold readFile at h ⊢
  rw [List.find?_append]
  cases hf : l₁.find? (fun p => p.1 == r) with
  | none =>
    rw [show (FS.mk l₁).files = l₁ from rfl, hf] at h
    simp at h
  | some e =>
    rw [show (FS.mk l₁).files = l₁ from rfl, hf] at h
    simpa using h

theorem readFile_write_new {fs : FS} {r : String} (c : Bytes)
    (h : pathExists fs r = false) :
    readFile ⟨fs.files ++ [(r, c)]⟩ r = some c := by
  have hnm := (free_props h).2.2.2
  unfold readFile
  rw [List.find?_append]
  have h1 : fs.files.find? (fun p => p.1 == r) = none := by
    rw [List.find?_eq_none]
    intro x hx hbeq
    exact hnm (((by simpa using hbeq : x.1 = r)) ▸ List.mem_map_of_mem Prod.fst hx)
  rw [h1]
  simp

theorem readFile_preserved {fs : FS} {r : String} {c : Bytes}
    (h : readFile fs r = some c) (parts : List (String × Bytes)) :
    readFile (upload_files fs parts).1 r = some c := by
  induction parts generalizing fs with
  | nil => simpa [upload_files] using h
  | cons part rest ih =>
    simp only [upload_files]
    apply ih
    rw [processFile_eq]
    exact readFile_append_left h


/-! ## Sequential uploads of the same original name -/

theorem pathExists_append (fs : FS) (r : String) (c : Bytes) (s : String) :
    pathExists ⟨fs.files ++ [(r, c)]⟩ s = (pathExists fs s || s == r) := by
  rw [Bool.eq_iff_iff]
  simp only [Bool.or_eq_true, beq_iff_eq, pathExists_iff]
  simp [allNames, FS.names]
  tauto

theorem natDecimal_ne_nil (n : Nat) : (natDecimal n).data ≠ [] := by
  unfold natDecimal
  by_cases hn : n = 0
  · rw [if_pos hn]
    simp [String.data]
  · rw [if_neg hn]
    exact natDecAux_ne_nil n hn

theorem mkCandidate_ne_base (safe : String) (n : Nat) :
    mkCandidate (splitExt safe).1 (splitExt safe).2 n ≠ safe := by
  intro h
  have hd := congrArg String.data h
  rw [mkCandidate_data] at hd
  have hlen := congrArg List.length hd
  rw [splitExt_data safe] at hlen
  rw [List.length_append, List.length_cons, List.length_append, List.length_append] at hlen
  have hnd : (natDecimal n).data.length ≠ 0 := by
    intro h0
    exact natDecimal_ne_nil n (List.length_eq_zero.mp h0)
  omega

/-- During a run of uploads of the same original name, if every candidate
index in `[1, t)` is taken and the indices `[t, t + |cs|)` are still free,
the uploads resolve to consecutive suffixes `t, t+1, ...`. -/
theorem uploadRepeat_aux (b x : String) (hx : pathlibName x = b) :
    ∀ (cs : List Bytes) (fs : FS) (t : Nat), 1 ≤ t →
    pathExists fs b = true →
    (∀ m, 1 ≤ m → m < t →
      pathExists fs (mkCandidate (splitExt b).1 (splitExt b).2 m) = true) →
    (∀ m, t ≤ m → m < t + cs.length →
      pathExists fs (mkCandidate (splitExt b).1 (splitExt b).2 m) = false) →
    (upload_files fs (cs.map (fun c => (x, c)))).2
      = (List.range cs.length).map
          (fun j => mkCandidate (splitExt b).1 (splitExt b).2 (t + j)) := by
  intro cs
  induction cs with
  | nil => intro fs t _ _ _ _; simp [upload_files]
  | cons c cs ih =>
    intro fs t ht hb hmid hfree
    obtain ⟨n, hn1, hnfree, hnmid, hneq, _⟩ := (resolveName_spec fs b).2 hb
    have hnt : n = t := by
      rcases Nat.lt_trichotomy n t with h | h | h
      · have := hmid n hn1 h
        rw [this] at hnfree
        exact absurd hnfree (by simp)
      · exact h
      · have := hnmid t ht h
        rw [hfree t le_rfl (by simp)] at this
        exact absurd this (by simp)
    subst hnt
    have hres : (processFile fs (x, c)).2
        = mkCandidate (splitExt b).1 (splitExt b).2 n := by
      rw [processFile_eq]
      simp only [hx]
      exact hneq
    have hstate : (processFile fs (x, c)).1
        = ⟨fs.files ++ [(mkCandidate (splitExt b).1 (splitExt b).2 n, c)]⟩ := by
      rw [processFile_eq]
      simp only [hx]
      rw [hneq]
    simp only [List.map_cons, upload_files]
    rw [hres, hstate]
    rw [ih ⟨fs.files ++ [(mkCandidate (splitExt b).1 (splitExt b).2 n, c)]⟩ (n + 1)
      (by omega)
      (by rw [pathExists_append, hb]; simp)
      (by
        intro m h1 h2
        rw [pathExists_append]
        rcases Nat.lt_or_ge m n with hm | hm
        · rw [hmid m h1 hm]; simp
        · have hmn : m = n := by omega
          subst hmn
          simp)
      (by
        intro m h1 h2
        rw [pathExists_append]
        rw [hfree m (by omega) (by simp only [List.length_cons]; omega)]
        have hne : mkCandidate (splitExt b).1 (splitExt b).2 m
            ≠ mkCandidate (splitExt b).1 (splitExt b).2 n := by
          intro hc
          have := mkCandidate_inj (splitExt b).1 (splitExt b).2 hc
          omega
        rw [beq_eq_false_iff_ne.mpr hne]
        rfl)]
    simp only [List.length_cons, List.range_succ_eq_map, List.map_cons, List.map_map,
      Nat.add_zero]
    congr 1
    apply List.map_congr_left
    intro j _
    simp only [Function.comp_apply]
    congr 1
    omega


/-! ## Helper lemmas for the claim theorems -/

theorem names_append (fs : FS) (r : String) (c : Bytes) :
    (FS.mk (fs.files ++ [(r, c)])).names = fs.names ++ [r] := by
  simp [FS.names]

theorem mkCandidate_empty (m : Nat) : mkCandidate "" "" m = "_" ++ natDecimal m := by
  apply String.ext
  rw [mkCandidate_data, String.data_append]
  show [] ++ '_' :: ((natDecimal m).data ++ []) = ['_'] ++ (natDecimal m).data
  simp

theorem resolveName_of_least (fs : FS) (safe : String) (n : Nat)
    (hex : pathExists fs safe = true) (hn1 : 1 ≤ n)
    (hnf : pathExists fs (mkCandidate (splitExt safe).1 (splitExt safe).2 n) = false)
    (hmid : ∀ m, m < n → 1 ≤ m →
      pathExists fs (mkCandidate (splitExt safe).1 (splitExt safe).2 m) = true) :
    resolveName fs safe = mkCandidate (splitExt safe).1 (splitExt safe).2 n
      ∧ n ≤ fs.names.length + 4 := by
  obtain ⟨n', h1, h2, h3, h4, h5⟩ := (resolveName_spec fs safe).2 hex
  have : n' = n := by
    rcases Nat.lt_trichotomy n' n with h | h | h
    · rw [hmid n' h h1] at h2
      exact absurd h2 (by simp)
    · exact h
    · rw [h3 n hn1 h] at hnf
      exact absurd hnf (by simp)
  subst this
  exact ⟨h4, h5⟩

theorem upload_files_nodup (fs : FS) (parts : List (String × Bytes))
    (hnd : fs.names.Nodup) : (upload_files fs parts).1.names.Nodup := by
  induction parts generalizing fs with
  | nil => simpa [upload_files] using hnd
  | cons part rest ih =>
    simp only [upload_files]
    apply ih
    rw [processFile_eq, names_append]
    have hfree := resolveName_free fs (pathlibName part.1)
    have hnm := (free_props hfree).2.2.2
    rw [List.nodup_append]
    refine ⟨hnd, by simp, ?_⟩
    intro a ha hmem
    rw [List.mem_singleton] at hmem
    subst hmem
    exact hnm ha

theorem upload_files_take (fs : FS) (parts : List (String × Bytes)) :
    ((upload_files fs parts).1.files).take fs.files.length = fs.files := by
  obtain ⟨new, hnew⟩ := upload_files_append fs parts
  rw [hnew]
  exact List.take_left fs.files new

theorem upload_files_getD :
    ∀ (parts : List (String × Bytes)) (fs : FS) (i : Nat), i < parts.length →
    (upload_files fs parts).2.getD i ""
      = (processFile (upload_files fs (parts.take i)).1 (parts.getD i ("", []))).2 := by
  intro parts
  induction parts with
  | nil => intro fs i hi; simp at hi
  | cons part rest ih =>
    intro fs i hi
    cases i with
    | zero =>
      simp [upload_files]
    | succ i =>
      simp only [upload_files, List.getD_cons_succ, List.take_succ_cons]
      exact ih (processFile fs part).1 i (by simpa using hi)

theorem upload_files_read_at :
    ∀ (parts : List (String × Bytes)) (fs : FS) (i : Nat), i < parts.length →
    readFile (upload_files fs parts).1 ((upload_files fs parts).2.getD i "")
      = some ((parts.getD i ("", [])).2) := by
  intro parts
  induction parts with
  | nil => intro fs i hi; simp at hi
  | cons part rest ih =>
    intro fs i hi
    cases i with
    | zero =>
      simp only [upload_files, List.getD_cons_zero]
      apply readFile_preserved
      rw [processFile_eq]
      exact readFile_write_new part.2 (resolveName_free fs (pathlibName part.1))
    | succ i =>
      simp only [upload_files, List.getD_cons_succ]
      exact ih (processFile fs part).1 i (by simpa using hi)

theorem upload_filesE_error :
    ∀ (parts : List (String × Bytes × Bool)) (fs : FS) (k : Nat), k < parts.length →
    (∀ j, j < k → (parts.getD j ("", [], true)).2.2 = true) →
    (parts.getD k ("", [], true)).2.2 = false →
    upload_filesE fs parts
      = .error (upload_files fs ((parts.take k).map (fun p => (p.1, p.2.1)))).1 := by
  intro parts
  induction parts with
  | nil => intro fs k hk _ _; simp at hk
  | cons p rest ih =>
    obtain ⟨name, content, ok⟩ := p
    intro fs k hk hpre hfail
    cases k with
    | zero =>
      simp only [List.getD_cons_zero] at hfail
      simp only [upload_filesE, hfail]
      simp [upload_files]
    | succ k =>
      have hok : ok = true := by simpa using hpre 0 (by omega)
      subst hok
      simp only [upload_filesE]
      rw [ih (writeFile fs (resolveName fs (pathlibName name)) content) k
        (by simpa using hk)
        (fun j hj => by simpa using hpre (j + 1) (by omega))
        (by simpa using hfail)]
      simp only [List.take_succ_cons, List.map_cons, upload_files]
      rfl


/-! ## Claim theorems -/

/-- C2 (counterexample): the claim "for every client-supplied filename
containing path-separator sequences, the stored filename equals only the
final path component" fails when a file of that final-component name already
exists: uploading `a/b/../c.txt` while `c.txt` is stored resolves to
`c_1.txt`, not `c.txt`. -/
theorem claim_C2_counterexample :
    pathlibName "a/b/../c.txt" = "c.txt" ∧
    (processFile (FS.mk [("c.txt", [0])]) ("a/b/../c.txt", [1])).2 = "c_1.txt" ∧
    "c_1.txt" ≠ "c.txt" := by decide

/-- C2 (amended): the sanitized name is the final path component
(`a/b/../c.txt ↦ c.txt`, `../../etc/passwd ↦ passwd`); the stored filename
is either that component or its collision-renamed variant
`stem_n+extension`; and it is always nonempty, slash-free and distinct from
`.` and `..`, so the write stays inside the storage directory. -/
theorem claim_C2 (fs : FS) (name : String) (c : Bytes) :
    pathlibName "a/b/../c.txt" = "c.txt" ∧
    pathlibName "../../etc/passwd" = "passwd" ∧
    ((processFile fs (name, c)).2 = pathlibName name ∨
      ∃ n, 1 ≤ n ∧ (processFile fs (name, c)).2
        = mkCandidate (splitExt (pathlibName name)).1 (splitExt (pathlibName name)).2 n) ∧
    (processFile fs (name, c)).2 ≠ "" ∧
    (processFile fs (name, c)).2 ≠ "." ∧
    (processFile fs (name, c)).2 ≠ ".." ∧
    '/' ∉ ((processFile fs (name, c)).2).data := by
  have hp2 : (processFile fs (name, c)).2 = resolveName fs (pathlibName name) := by
    rw [processFile_eq]
  have hfree := resolveName_free fs (pathlibName name)
  obtain ⟨hne, hdot, hdd, _⟩ := free_props hfree
  refine ⟨by decide, by decide, ?_, ?_, ?_, ?_, ?_⟩
  · rw [hp2]
    obtain ⟨h1, h2⟩ := resolveName_spec fs (pathlibName name)
    cases hpe : pathExists fs (pathlibName name)
    · exact Or.inl (h1 hpe)
    · obtain ⟨n, hn1, _, _, heq, _⟩ := h2 hpe
      exact Or.inr ⟨n, hn1, heq⟩
  · rw [hp2]; exact hne
  · rw [hp2]; exact hdot
  · rw [hp2]; exact hdd
  · rw [hp2]
    exact resolveName_no_slash fs (pathlibName name) (pathlibName_no_slash name)

/-- C3: when the sanitized filename is free, the handler appends exactly one
file under that name with the uploaded bytes, reports that name, and the
file is readable back with the same bytes. -/
theorem claim_C3 (fs : FS) (name : String) (c : Bytes)
    (h : pathExists fs (pathlibName name) = false) :
    processFile fs (name, c)
        = (⟨fs.files ++ [(pathlibName name, c)]⟩, pathlibName name) ∧
    readFile (processFile fs (name, c)).1 (pathlibName name) = some c := by
  have hres : resolveName fs (pathlibName name) = pathlibName name :=
    (resolveName_spec fs (pathlibName name)).1 h
  refine ⟨?_, ?_⟩
  · rw [processFile_eq, hres]
  · rw [processFile_eq, hres]
    exact readFile_write_new c h

/-- C3 witness at a concrete input. -/
theorem claim_C3_witness :
    pathExists (FS.mk []) (pathlibName "f.txt") = false ∧
    (processFile (FS.mk []) ("f.txt", [7, 8])
        = (⟨(FS.mk []).files ++ [(pathlibName "f.txt", [7, 8])]⟩, pathlibName "f.txt") ∧
      readFile (processFile (FS.mk []) ("f.txt", [7, 8])).1 (pathlibName "f.txt")
        = some [7, 8]) :=
  ⟨by decide, claim_C3 (FS.mk []) "f.txt" [7, 8] (by decide)⟩

/-- C4: the `filenames` list of the response has exactly one entry per
submitted part, and its `i`-th entry is the name resolved (and written) for
the `i`-th part, i.e. the name the handler computes from the state left by
the first `i` parts. -/
theorem claim_C4 (fs : FS) (parts : List (String × Bytes)) (i : Nat)
    (hi : i < parts.length) :
    (upload_files fs parts).2.length = parts.length ∧
    (upload_files fs parts).2.getD i ""
      = (processFile (upload_files fs (parts.take i)).1 (parts.getD i ("", []))).2 :=
  ⟨upload_files_length fs parts, upload_files_getD parts fs i hi⟩

/-- C4 witness at a concrete input. -/
theorem claim_C4_witness :
    1 < ([("x.txt", [1]), ("x.txt", [2])] : List (String × Bytes)).length ∧
    ((upload_files (FS.mk []) [("x.txt", [1]), ("x.txt", [2])]).2.length
        = ([("x.txt", [1]), ("x.txt", [2])] : List (String × Bytes)).length ∧
      (upload_files (FS.mk []) [("x.txt", [1]), ("x.txt", [2])]).2.getD 1 ""
        = (processFile
            (upload_files (FS.mk [])
              (([("x.txt", [1]), ("x.txt", [2])] : List (String × Bytes)).take 1)).1
            (([("x.txt", [1]), ("x.txt", [2])] : List (String × Bytes)).getD 1
              ("", []))).2) :=
  ⟨by decide, claim_C4 (FS.mk []) [("x.txt", [1]), ("x.txt", [2])] 1 (by decide)⟩

/-- C5: every uploaded payload is retrievable under its resolved name from
the final directory state, with identical bytes and identical size. -/
theorem claim_C5 (fs : FS) (parts : List (String × Bytes)) (i : Nat)
    (hi : i < parts.length) :
    readFile (upload_files fs parts).1 ((upload_files fs parts).2.getD i "")
      = some ((parts.getD i ("", [])).2) ∧
    Option.map List.length
        (readFile (upload_files fs parts).1 ((upload_files fs parts).2.getD i ""))
      = some ((parts.getD i ("", [])).2.length) := by
  have h := upload_files_read_at parts fs i hi
  refine ⟨h, ?_⟩
  rw [h]
  rfl

/-- C5 witness at a concrete input. -/
theorem claim_C5_witness :
    1 < ([("x.txt", [1]), ("x.txt", [2, 3])] : List (String × Bytes)).length ∧
    (readFile (upload_files (FS.mk []) [("x.txt", [1]), ("x.txt", [2, 3])]).1
        ((upload_files (FS.mk []) [("x.txt", [1]), ("x.txt", [2, 3])]).2.getD 1 "")
      = some ((([("x.txt", [1]), ("x.txt", [2, 3])] : List (String × Bytes)).getD 1
          ("", [])).2) ∧
    Option.map List.length
        (readFile (upload_files (FS.mk []) [("x.txt", [1]), ("x.txt", [2, 3])]).1
          ((upload_files (FS.mk []) [("x.txt", [1]), ("x.txt", [2, 3])]).2.getD 1 ""))
      = some ((([("x.txt", [1]), ("x.txt", [2, 3])] : List (String × Bytes)).getD 1
          ("", [])).2.length)) :=
  ⟨by decide, claim_C5 (FS.mk []) [("x.txt", [1]), ("x.txt", [2, 3])] 1 (by decide)⟩

/-- C6: each write targets a path that did not exist at check time (so no
stored file is overwritten: the handler only appends a fresh entry), and
name-uniqueness of the directory is preserved across a whole batch. -/
theorem claim_C6 (fs : FS) (part : String × Bytes) (parts : List (String × Bytes))
    (hnd : fs.names.Nodup) :
    pathExists fs (processFile fs part).2 = false ∧
    (processFile fs part).1.files = fs.files ++ [((processFile fs part).2, part.2)] ∧
    (upload_files fs parts).1.names.Nodup := by
  refine ⟨?_, ?_, upload_files_nodup fs parts hnd⟩
  · rw [processFile_eq]
    exact resolveName_free fs (pathlibName part.1)
  · rw [processFile_eq]

/-- C6 witness at a concrete input. -/
theorem claim_C6_witness :
    (FS.mk [("a.txt", [0])]).names.Nodup ∧
    (pathExists (FS.mk [("a.txt", [0])])
        (processFile (FS.mk [("a.txt", [0])]) ("a.txt", [1])).2 = false ∧
      (processFile (FS.mk [("a.txt", [0])]) ("a.txt", [1])).1.files
        = (FS.mk [("a.txt", [0])]).files
            ++ [((processFile (FS.mk [("a.txt", [0])]) ("a.txt", [1])).2, [1])] ∧
      (upload_files (FS.mk [("a.txt", [0])]) [("a.txt", [2])]).1.names.Nodup) :=
  ⟨by decide, claim_C6 (FS.mk [("a.txt", [0])]) ("a.txt", [1]) [("a.txt", [2])]
    (by decide)⟩

/-- C7: if the first failing write is the `k`-th part, the request ends in
the request-level error path (carrying no per-file report), the directory is
left exactly as after the first `k` successful writes, and the files present
before the request are still there unchanged. -/
theorem claim_C7 (fs : FS) (parts : List (String × Bytes × Bool)) (k : Nat)
    (hk : k < parts.length)
    (hpre : ∀ j, j < k → (parts.getD j ("", [], true)).2.2 = true)
    (hfail : (parts.getD k ("", [], true)).2.2 = false) :
    upload_filesE fs parts
      = .error (upload_files fs ((parts.take k).map (fun p => (p.1, p.2.1)))).1 ∧
    ((upload_files fs ((parts.take k).map (fun p => (p.1, p.2.1)))).1.files).take
        fs.files.length = fs.files :=
  ⟨upload_filesE_error parts fs k hk hpre hfail, upload_files_take fs _⟩

/-- C7 witness at a concrete input. -/
theorem claim_C7_witness :
    1 < ([("a.txt", [1], true), ("b.txt", [2], false)]
        : List (String × Bytes × Bool)).length ∧
    ((([("a.txt", [1], true), ("b.txt", [2], false)]
        : List (String × Bytes × Bool))).getD 1 ("", [], true)).2.2 = false ∧
    (upload_filesE (FS.mk []) [("a.txt", [1], true), ("b.txt", [2], false)]
        = .error (upload_files (FS.mk [])
            ((([("a.txt", [1], true), ("b.txt", [2], false)]
              : List (String × Bytes × Bool)).take 1).map
                (fun p => (p.1, p.2.1)))).1 ∧
      ((upload_files (FS.mk [])
          ((([("a.txt", [1], true), ("b.txt", [2], false)]
            : List (String × Bytes × Bool)).take 1).map
              (fun p => (p.1, p.2.1)))).1.files).take
          (FS.mk [] : FS).files.length = (FS.mk [] : FS).files) :=
  ⟨by decide, by decide,
    claim_C7 (FS.mk []) [("a.txt", [1], true), ("b.txt", [2], false)] 1
      (by decide) (by decide) (by decide)⟩

/-- C8: an upload batch only appends: the files present before the batch are
still present afterwards, unchanged in name, content and order, and the
directory can only have grown. -/
theorem claim_C8 (fs : FS) (parts : List (String × Bytes)) :
    ((upload_files fs parts).1.files).take fs.files.length = fs.files ∧
    fs.files.length ≤ (upload_files fs parts).1.files.length := by
  obtain ⟨new, hnew⟩ := upload_files_append fs parts
  constructor
  · rw [hnew]
    exact List.take_left fs.files new
  · rw [hnew, List.length_append]
    omega


/-- C1: when the sanitized base name `b = stem+extension` already exists,
the handler resolves to `stem_n+extension` for the least free `n ≥ 1`;
sequential uploads of one original name produce the gap-free monotone
sequence `b, stem_1+ext, stem_2+ext, ...`; and the extension is preserved
after the numeric suffix (`report.pdf` collides to `report_1.pdf`). -/
theorem claim_C1 (fs : FS) (b : String) (n : Nat)
    (fs₀ : FS) (x b₀ : String) (contents : List Bytes)
    (hb : pathExists fs b = true) (hn1 : 1 ≤ n)
    (hnf : pathExists fs (mkCandidate (splitExt b).1 (splitExt b).2 n) = false)
    (hmid : ∀ m, m < n → 1 ≤ m →
      pathExists fs (mkCandidate (splitExt b).1 (splitExt b).2 m) = true)
    (hx : pathlibName x = b₀)
    (h0 : pathExists fs₀ b₀ = false)
    (hfr : ∀ j, j ≤ contents.length → 1 ≤ j →
      pathExists fs₀ (mkCandidate (splitExt b₀).1 (splitExt b₀).2 j) = false) :
    (splitExt b).1 ++ (splitExt b).2 = b ∧
    resolveName fs b = mkCandidate (splitExt b).1 (splitExt b).2 n ∧
    (upload_files fs₀ (contents.map (fun c => (x, c)))).2
      = (List.range contents.length).map
          (fun j => if j = 0 then b₀
            else mkCandidate (splitExt b₀).1 (splitExt b₀).2 j) ∧
    resolveName (FS.mk [("report.pdf", [0])]) "report.pdf" = "report_1.pdf" := by
  refine ⟨splitExt_comp b,
    (resolveName_of_least fs b n hb hn1 hnf hmid).1, ?_, by decide⟩
  cases contents with
  | nil => simp [upload_files]
  | cons c cs =>
    have hres : (processFile fs₀ (x, c)).2 = b₀ := by
      rw [processFile_eq, hx]
      exact (resolveName_spec fs₀ b₀).1 h0
    have hstate : (processFile fs₀ (x, c)).1 = ⟨fs₀.files ++ [(b₀, c)]⟩ := by
      rw [processFile_eq, hx, (resolveName_spec fs₀ b₀).1 h0]
    simp only [List.map_cons, upload_files]
    rw [hres, hstate]
    rw [uploadRepeat_aux b₀ x hx cs ⟨fs₀.files ++ [(b₀, c)]⟩ 1 le_rfl
      (by rw [pathExists_append, h0]; simp)
      (by intro m h1 h2; omega)
      (by
        intro m h1 h2
        rw [pathExists_append]
        rw [hfr m (by simp only [List.length_cons]; omega) h1]
        rw [beq_eq_false_iff_ne.mpr (mkCandidate_ne_base b₀ m)]
        rfl)]
    simp only [List.length_cons, List.range_succ_eq_map, List.map_cons, List.map_map]
    congr 1
    apply List.map_congr_left
    intro j _
    simp only [Function.comp_apply]
    rw [if_neg (Nat.succ_ne_zero j)]
    congr 1
    omega

/-- C1 witness at a concrete input. -/
theorem claim_C1_witness :
    pathExists (FS.mk [("report.pdf", [0]), ("report_1.pdf", [0])]) "report.pdf"
        = true ∧
    pathExists (FS.mk [("report.pdf", [0]), ("report_1.pdf", [0])])
        (mkCandidate (splitExt "report.pdf").1 (splitExt "report.pdf").2 2) = false ∧
    pathlibName "x.txt" = "x.txt" ∧
    pathExists (FS.mk []) "x.txt" = false ∧
    ((splitExt "report.pdf").1 ++ (splitExt "report.pdf").2 = "report.pdf" ∧
      resolveName (FS.mk [("report.pdf", [0]), ("report_1.pdf", [0])]) "report.pdf"
        = mkCandidate (splitExt "report.pdf").1 (splitExt "report.pdf").2 2 ∧
      (upload_files (FS.mk [])
          (([[1], [2], [3]] : List Bytes).map (fun c => ("x.txt", c)))).2
        = (List.range ([[1], [2], [3]] : List Bytes).length).map
            (fun j => if j = 0 then "x.txt"
              else mkCandidate (splitExt "x.txt").1 (splitExt "x.txt").2 j) ∧
      resolveName (FS.mk [("report.pdf", [0])]) "report.pdf" = "report_1.pdf") :=
  ⟨by decide, by decide, by decide, by decide,
    claim_C1 (FS.mk [("report.pdf", [0]), ("report_1.pdf", [0])]) "report.pdf" 2
      (FS.mk []) "x.txt" "x.txt" [[1], [2], [3]]
      (by decide) (by decide) (by decide) (by decide) (by decide) (by decide)
      (by decide)⟩

/-- C9: the collision loop terminates — its result does not depend on the
fuel once the fuel is at least `fuelFor fs` — returning the original
candidate after zero iterations when it is free, and otherwise
`stem_n+extension` after exactly `n` iterations, where `n` is the least free
suffix index. -/
theorem claim_C9 (fs : FS) (safe : String) (fuel n : Nat)
    (hfuel : fuelFor fs ≤ fuel) (hn1 : 1 ≤ n)
    (hnf : pathExists fs (mkCandidate (splitExt safe).1 (splitExt safe).2 n) = false)
    (hmid : ∀ m, m < n → 1 ≤ m →
      pathExists fs (mkCandidate (splitExt safe).1 (splitExt safe).2 m) = true) :
    resolveLoop fs (splitExt safe).1 (splitExt safe).2 safe 1 fuel
      = resolveName fs safe ∧
    resolveName fs safe
      = (if pathExists fs safe then
          mkCandidate (splitExt safe).1 (splitExt safe).2 n else safe) ∧
    resolveSteps fs (splitExt safe).1 (splitExt safe).2 safe 1 (fuelFor fs)
      = (if pathExists fs safe then n else 0) := by
  have hfuelFor : 5 ≤ fuelFor fs := by simp [fuelFor]
  cases hpe : pathExists fs safe
  · have hname : resolveName fs safe = safe := (resolveName_spec fs safe).1 hpe
    refine ⟨?_, ?_, ?_⟩
    · rw [hname]
      exact resolveLoop_of_free fs _ _ safe 1 fuel hpe (by omega)
    · rw [hname]
      rfl
    · show resolveSteps fs (splitExt safe).1 (splitExt safe).2 safe 1 (fuelFor fs) = 0
      exact resolveSteps_of_free fs _ _ safe 1 (fuelFor fs) hpe
  · obtain ⟨heq, hle⟩ := resolveName_of_least fs safe n hpe hn1 hnf hmid
    have hmid' : ∀ m, 1 ≤ m → m < n →
        pathExists fs (mkCandidate (splitExt safe).1 (splitExt safe).2 m) = true :=
      fun m h1 h2 => hmid m h2 h1
    have hfuelbig : n - 1 + 2 ≤ fuelFor fs := by
      simp only [fuelFor]
      omega
    refine ⟨?_, ?_, ?_⟩
    · rw [heq]
      exact resolveLoop_eq_mk fs _ _ fuel safe 1 n hpe hn1 hmid' hnf (by omega)
    · rw [heq]
      rfl
    · show resolveSteps fs (splitExt safe).1 (splitExt safe).2 safe 1 (fuelFor fs) = n
      rw [resolveSteps_eq fs _ _ (fuelFor fs) safe 1 n hpe hn1 hmid' hnf hfuelbig]
      omega

/-- C9 witness at a concrete input. -/
theorem claim_C9_witness :
    fuelFor (FS.mk [("x.txt", [0])]) ≤ 9 ∧
    pathExists (FS.mk [("x.txt", [0])])
        (mkCandidate (splitExt "x.txt").1 (splitExt "x.txt").2 1) = false ∧
    (resolveLoop (FS.mk [("x.txt", [0])]) (splitExt "x.txt").1 (splitExt "x.txt").2
        "x.txt" 1 9 = resolveName (FS.mk [("x.txt", [0])]) "x.txt" ∧
      resolveName (FS.mk [("x.txt", [0])]) "x.txt"
        = (if pathExists (FS.mk [("x.txt", [0])]) "x.txt" then
            mkCandidate (splitExt "x.txt").1 (splitExt "x.txt").2 1 else "x.txt") ∧
      resolveSteps (FS.mk [("x.txt", [0])]) (splitExt "x.txt").1 (splitExt "x.txt").2
          "x.txt" 1 (fuelFor (FS.mk [("x.txt", [0])]))
        = (if pathExists (FS.mk [("x.txt", [0])]) "x.txt" then 1 else 0)) :=
  ⟨by decide, by decide,
    claim_C9 (FS.mk [("x.txt", [0])]) "x.txt" 9 1
      (by decide) (by decide) (by decide) (by decide)⟩

/-- C10: the existence check fires on any existing path, not only regular
files: the empty client filename sanitizes to the empty name, whose joined
path (the storage directory itself) always exists, so the payload is stored
under `_n` for the least free `n ≥ 1` — `_1` in a fresh directory — instead
of being rejected. -/
theorem claim_C10 (fs : FS) (c : Bytes) (n : Nat) (hn1 : 1 ≤ n)
    (hnf : pathExists fs ("_" ++ natDecimal n) = false)
    (hmid : ∀ m, m < n → 1 ≤ m → pathExists fs ("_" ++ natDecimal m) = true) :
    pathlibName "" = "" ∧
    pathExists fs "" = true ∧
    (processFile fs ("", c)).2 = "_" ++ natDecimal n ∧
    processFile (FS.mk []) ("", [7]) = (FS.mk [("_1", [7])], "_1") := by
  have hpe : pathExists fs "" = true := by simp [pathExists]
  have hmk : ∀ m, mkCandidate (splitExt "").1 (splitExt "").2 m
      = "_" ++ natDecimal m := by
    intro m
    have h1 : (splitExt "").1 = "" := rfl
    have h2 : (splitExt "").2 = "" := rfl
    rw [h1, h2, mkCandidate_empty]
  refine ⟨by decide, hpe, ?_, by decide⟩
  have heq := resolveName_of_least fs "" n hpe hn1
    (by rw [hmk n]; exact hnf)
    (fun m hm hm1 => by rw [hmk m]; exact hmid m hm hm1)
  have hp2 : (processFile fs ("", c)).2 = resolveName fs (pathlibName "") := by
    rw [processFile_eq]
  rw [hp2]
  have hpn : pathlibName "" = "" := by decide
  rw [hpn, heq.1, hmk n]

/-- C10 witness at a concrete input. -/
theorem claim_C10_witness :
    pathExists (FS.mk [("_1", [0])]) ("_" ++ natDecimal 2) = false ∧
    (pathlibName "" = "" ∧
      pathExists (FS.mk [("_1", [0])]) "" = true ∧
      (processFile (FS.mk [("_1", [0])]) ("", [5])).2 = "_" ++ natDecimal 2 ∧
      processFile (FS.mk []) ("", [7]) = (FS.mk [("_1", [7])], "_1")) :=
  ⟨by decide,
    claim_C10 (FS.mk [("_1", [0])]) [5] 2 (by decide) (by decide) (by decide)⟩

end UploadServer
